import Mathlib

/-!
Verification of the slot permutation engine (`group_formations.py`) and the
role extraction engine (`roles.py`) of the sports-networks repository.

The Python source is shallowly embedded: frames are lists of coordinate
entries (`Option ℤ` in substitution mode, where `none` is Python's `None`
missing marker), dictionaries are association lists, numpy float arrays are
matrices of rationals (`List (List ℚ)`), and fallible operations (dictionary
lookup, `list.index`, out-of-range indexing, reading the head of an empty
queue) return `Option`, with `none` standing for the raised Python exception.
-/

set_option autoImplicit false

namespace SportsNets

/-- Effectful map over a list in the `Option` monad, written as structural
recursion so the Python `for` loops that can raise are embedded one step at a
time: the first failing element makes the whole loop fail. -/
def mapOpt {α β : Type} (f : α → Option β) : List α → Option (List β)
  | [] => some []
  | a :: l => do
    let b ← f a
    let bs ← mapOpt f l
    pure (b :: bs)

/-! ## Slot permutation engine: fixed mode (`permute_xy`, lines 101-119) -/

/-- Embeds the `ordered_shirts` accumulation of `permute_xy` (lines 106-108):
the concatenation, in canonical slot order, of each slot's shirt list taken
from the `position_to_shirt` dictionary.  A missing slot key is a `KeyError`,
hence `none`. -/
def ordered_shirts_of (positions : List String)
    (position_to_shirt : List (String × List Nat)) : Option (List Nat) :=
  (mapOpt (fun p => position_to_shirt.lookup p) positions).map List.flatten

/-- Embeds line 110 of `permute_xy`: `shirt_to_index.index(s)` for each shirt,
i.e. the index of the first occurrence; a shirt absent from the list is a
`ValueError`, hence `none`. -/
def ordered_indices_of (shirts : List Nat) (shirt_to_index : List Nat) :
    Option (List Nat) :=
  mapOpt (fun s => shirt_to_index.findIdx? (· == s)) shirts

/-- Embeds the inner loop of `permute_xy` (lines 114-117): for each ordered
tracking index `j`, append `row[2*j]` and `row[2*j+1]` to the new row.
An out-of-range read is an `IndexError`, hence `none`. -/
def permute_row {α : Type} (row : List α) (idxs : List Nat) : Option (List α) :=
  (mapOpt (fun j => do
    let x ← row[2 * j]?
    let y ← row[2 * j + 1]?
    pure [x, y]) idxs).map List.flatten

/-- Embeds `permute_xy` (lines 101-119): fixed-assignment slot permutation.
`default_permutations` maps a formation name to its canonical slot ordering. -/
def permute_xy {α : Type} (xy : List (List α)) (formation : String)
    (shirt_to_index : List Nat) (position_to_shirt : List (String × List Nat))
    (default_permutations : List (String × List String)) :
    Option (List (List α)) := do
  let positions ← default_permutations.lookup formation
  let os ← ordered_shirts_of positions position_to_shirt
  let oi ← ordered_indices_of os shirt_to_index
  mapOpt (fun row => permute_row row oi) xy

/-! ## Slot permutation engine: substitution mode
(`permute_xy_with_subs`, lines 122-147) -/

/-- Embeds the per-slot body of the frame loop (lines 140-143): read the head
of the slot's queue; if that candidate's x entry is the missing marker, pop it
(`Queue.get`) and take the new head.  Reading the head of an empty queue is an
`IndexError`, hence `none`; an out-of-range x read is likewise `none`.
Returns the selected tracking index together with the queue after the frame. -/
def subsStep (row : List (Option ℤ)) (q : List Nat) : Option (Nat × List Nat) := do
  let b ← q.head?
  let x ← row[2 * b]?
  match x with
  | none =>
      match q.tail with
      | [] => none
      | b2 :: rest => pure (b2, b2 :: rest)
  | some _ => pure (b, q)

/-- Embeds one iteration of the frame loop of `permute_xy_with_subs`
(lines 138-146): process every slot queue in order, appending the selected
candidate's x and y entries to the new row.  Returns the permuted row and the
updated queues. -/
def subsFrame (row : List (Option ℤ)) :
    List (List Nat) → Option (List (Option ℤ) × List (List Nat))
  | [] => some ([], [])
  | q :: qs => do
    let (b, q2) ← subsStep row q
    let x ← row[2 * b]?
    let y ← row[2 * b + 1]?
    let (out, qs2) ← subsFrame row qs
    pure (x :: y :: out, q2 :: qs2)

/-- Embeds the outer frame loop of `permute_xy_with_subs` (lines 136-146),
threading the mutable queues through the frames.  Returns the permuted frames
and the final queues. -/
def subsRun (xy : List (List (Option ℤ))) (qs : List (List Nat)) :
    Option (List (List (Option ℤ)) × List (List Nat)) :=
  match xy with
  | [] => some ([], qs)
  | row :: rest => do
    let (outRow, qs2) ← subsFrame row qs
    let (outRest, qs3) ← subsRun rest qs2
    pure (outRow :: outRest, qs3)

/-- Embeds the queue seeding of `permute_xy_with_subs` (lines 125-134): one
FIFO queue per canonical slot, holding the tracking indices of the slot's
shirts, primary first then substitutes in roster order. -/
def initial_queues (formation : String) (shirt_to_index : List Nat)
    (position_to_shirt : List (String × List Nat))
    (default_permutations : List (String × List String)) :
    Option (List (List Nat)) := do
  let positions ← default_permutations.lookup formation
  let shirts ← mapOpt (fun p => position_to_shirt.lookup p) positions
  mapOpt (fun s => mapOpt (fun shirt => shirt_to_index.findIdx? (· == shirt)) s) shirts

/-- Embeds `permute_xy_with_subs` (lines 122-147): substitution-aware slot
permutation. -/
def permute_xy_with_subs (xy : List (List (Option ℤ))) (formation : String)
    (shirt_to_index : List Nat) (position_to_shirt : List (String × List Nat))
    (default_permutations : List (String × List String)) :
    Option (List (List (Option ℤ))) := do
  let qs ← initial_queues formation shirt_to_index position_to_shirt
    default_permutations
  let (out, _) ← subsRun xy qs
  pure out

/-- The queue states of `permute_xy_with_subs` after processing a prefix of
the frames: the second component of `subsRun`. -/
def subsQueuesAfter (xy : List (List (Option ℤ))) (qs : List (List Nat)) :
    Option (List (List Nat)) :=
  (subsRun xy qs).map Prod.snd

/-- The per-frame selection trace of one slot of `permute_xy_with_subs`: the
tracking index `subsStep` selects for this slot at each frame, threading the
slot's queue through the frames exactly as the engine does. -/
def slotSelAux : List (List (Option ℤ)) → List Nat → Option (List Nat)
  | [], _ => some []
  | row :: rest, q => do
    let (b, q2) ← subsStep row q
    let sels ← slotSelAux rest q2
    pure (b :: sels)

/-- The state of one slot's queue after a prefix of the frames has been
processed by `subsStep`. -/
def slotQueueAfter : List (List (Option ℤ)) → List Nat → Option (List Nat)
  | [], q => some q
  | row :: rest, q => do
    let (_, q2) ← subsStep row q
    slotQueueAfter rest q2

/-! ## Orientation decision of `process_xy` (lines 150-160) -/

/-- The hardcoded exception title of line 67. -/
def match_where_away_team_starts_on_right : String :=
  "Fortuna Düsseldorf:1. FC Kaiserslautern"

/-- Embeds the orientation branch of `process_xy` (lines 151-160): which half
of the given team's coordinates is rotated by 180°, as a function of the match
title and the team name. -/
def rotated_half (match_title team : String) : String :=
  if match_title ≠ match_where_away_team_starts_on_right then
    if team = "Home" then "firstHalf" else "secondHalf"
  else
    if team = "Away" then "firstHalf" else "secondHalf"

/-! ## Role extraction engine (`roles.py`)

numpy float arrays become matrices of rationals (`List (List ℚ)`), NaN
becomes `none` in coordinate data, and `np.nan` written into a heatmap
becomes the sentinel `none`. -/

/-- numpy `.sum()` over a 2-D array. -/
def matSum (m : List (List ℚ)) : ℚ := (m.map List.sum).sum

/-- Elementwise division of a matrix by a scalar. -/
def matDiv (m : List (List ℚ)) (t : ℚ) : List (List ℚ) :=
  m.map (List.map (· / t))

/-- Embeds `normalize_to_occupancy` (`roles.py` lines 74-92): divide by the
total when it is positive, otherwise return the matrix unchanged. -/
def normalize_to_occupancy (m : List (List ℚ)) : List (List ℚ) :=
  if matSum m > 0 then matDiv m (matSum m) else m

/-- Truncation toward zero: numpy `.astype(int)` on a float value. -/
def ratTrunc (q : ℚ) : ℤ := if q < 0 then ⌈q⌉ else ⌊q⌋

/-- numpy `np.clip(i, 0, n - 1)`. -/
def clipIdx (i : ℤ) (n : ℕ) : ℕ := (max 0 (min i ((n : ℤ) - 1))).toNat

/-- Number of bins along one axis (lines 50-51 and 152-153):
`int(np.ceil((hi - lo) / bin_size))`. -/
def n_bins (lo hi bin : ℚ) : ℕ := (⌈(hi - lo) / bin⌉).toNat

/-- `np.zeros((r, c))`. -/
def zeros (r c : ℕ) : List (List ℚ) := List.replicate r (List.replicate c 0)

/-- Replace the element at an index, leaving other positions unchanged (the
source always clips indices into range before writing). -/
def modifyAt {α : Type} : List α → ℕ → (α → α) → List α
  | [], _, _ => []
  | a :: l, 0, f => f a :: l
  | a :: l, n + 1, f => a :: modifyAt l n f

/-- `count_matrix[y_bin, x_bin] += 1` (line 69). -/
def incr (m : List (List ℚ)) (yb xb : ℕ) : List (List ℚ) :=
  modifyAt m yb (fun r => modifyAt r xb (· + 1))

/-- A sample is valid when neither coordinate is NaN (line 57). -/
def isValidSample : Option ℚ × Option ℚ → Bool
  | (some _, some _) => true
  | _ => false

/-- Bin index of one coordinate (lines 64-65): truncate the scaled offset and
clip into `[0, n-1]`. -/
def binOf (lo bin : ℚ) (n : ℕ) (v : ℚ) : ℕ :=
  clipIdx (ratTrunc ((v - lo) / bin)) n

/-- One step of the counting loop of `create_player_count_matrix`
(lines 56-69): a valid sample increments its bin, an invalid one is
skipped. -/
def countStep (xlo ylo bin : ℚ) (nx ny : ℕ) (m : List (List ℚ)) :
    Option ℚ × Option ℚ → List (List ℚ)
  | (some x, some y) => incr m (binOf ylo bin ny y) (binOf xlo bin nx x)
  | _ => m

/-- Embeds `create_player_count_matrix` (lines 23-71). -/
def create_player_count_matrix (xy : List (Option ℚ × Option ℚ))
    (xlo xhi ylo yhi bin : ℚ) : List (List ℚ) :=
  xy.foldl (countStep xlo ylo bin (n_bins xlo xhi bin) (n_bins ylo yhi bin))
    (zeros (n_bins ylo yhi bin) (n_bins xlo xhi bin))

/-- One 1-D pass of the smoothing kernel over the tail of a row, carrying the
previous input value; the off-centre weight is `k`, the centre weight
`1 - 2*k`, and edges are reflected (the out-of-grid neighbour repeats the
edge value). -/
def smooth1Aux (k : ℚ) : ℚ → List ℚ → List ℚ
  | p, [x] => [k * p + (1 - 2 * k) * x + k * x]
  | p, x :: y :: rest => (k * p + (1 - 2 * k) * x + k * y) :: smooth1Aux k x (y :: rest)
  | _, [] => []

/-- One 1-D smoothing pass over a row with reflected edges. -/
def smooth1 (k : ℚ) : List ℚ → List ℚ
  | [] => []
  | x :: rest => smooth1Aux k x (x :: rest)

/-- Elementwise sum of two rows. -/
def vadd (a b : List ℚ) : List ℚ := List.zipWith (· + ·) a b

/-- Row scaled by a constant. -/
def smul (c : ℚ) (v : List ℚ) : List ℚ := v.map (c * ·)

/-- Kernel combination of three consecutive rows. -/
def rowComb (k : ℚ) (p x y : List ℚ) : List ℚ :=
  vadd (vadd (smul k p) (smul (1 - 2 * k) x)) (smul k y)

/-- The 1-D smoothing pass applied along columns: same recursion as
`smooth1Aux` with whole rows as elements. -/
def smoothColsAux (k : ℚ) : List ℚ → List (List ℚ) → List (List ℚ)
  | p, [x] => [rowComb k p x x]
  | p, x :: y :: rest => rowComb k p x y :: smoothColsAux k x (y :: rest)
  | _, [] => []

/-- Column smoothing pass with reflected edges. -/
def smoothCols (k : ℚ) : List (List ℚ) → List (List ℚ)
  | [] => []
  | x :: rest => smoothColsAux k x (x :: rest)

/-- Modelled from the spec: the isotropic Gaussian smoothing step
(`scipy.ndimage.gaussian_filter` at `roles.py` line 111, a library external
to the repository) as a separable convolution: one positive normalized
kernel pass along rows, one along columns, with reflected edges (scipy's
default boundary mode); `k` is the off-centre kernel weight determined by
the bandwidth `sigma`. -/
def gaussian_filter (k : ℚ) (m : List (List ℚ)) : List (List ℚ) :=
  smoothCols k (m.map (smooth1 k))

/-- Embeds `smooth_occupancy` (lines 95-116): smooth, then renormalize when
the smoothed total is positive. -/
def smooth_occupancy (k : ℚ) (m : List (List ℚ)) : List (List ℚ) :=
  if matSum (gaussian_filter k m) > 0 then
    matDiv (gaussian_filter k m) (matSum (gaussian_filter k m))
  else gaussian_filter k m

/-- Column pair of one player (lines 158-162); `none` is NaN. -/
def player_xy (xy : List (List (Option ℚ))) (p : ℕ) :
    List (Option ℚ × Option ℚ) :=
  xy.map (fun row => ((row[2 * p]?).join, (row[2 * p + 1]?).join))

/-- `n_players = xy_data.shape[1] // 2` (line 148): numpy rows all have the
same length, so the first row determines the count. -/
def n_players_of (xy : List (List (Option ℚ))) : ℕ := (xy.headD []).length / 2

/-- Embeds `build_occupancy_matrix` (lines 119-176): one occupancy row per
player, counts, then normalization, then smoothing, then flattening into the
row of `X`. -/
def build_occupancy_matrix (xy : List (List (Option ℚ)))
    (xlo xhi ylo yhi bin k : ℚ) : List (List ℚ) :=
  (List.range (n_players_of xy)).map (fun p =>
    (smooth_occupancy k (normalize_to_occupancy
      (create_player_count_matrix (player_xy xy p) xlo xhi ylo yhi bin))).flatten)

/-- Scan keeping the first index whose value strictly exceeds the running
maximum, as numpy `argmax` does. -/
def argmaxAux : List ℚ → ℚ → ℕ → ℕ → ℕ
  | [], _, _, best => best
  | x :: xs, cur, i, best =>
    if cur < x then argmaxAux xs x (i + 1) i else argmaxAux xs cur (i + 1) best

/-- numpy `np.argmax` over one row: the first maximal index. -/
def np_argmax : List ℚ → ℕ
  | [] => 0
  | x :: xs => argmaxAux xs x 1 0

/-- Embeds line 297 of `extract_roles`:
`player_role_assignments = np.argmax(W, axis=1)`. -/
def player_role_assignments (W : List (List ℚ)) : List ℕ := W.map np_argmax

/-- K-th largest entry of a row: `np.partition(flat, -top_k)[-top_k]`
(line 349); Python index `-K` is `len - K` for `K ≥ 1` and `0` for `K = 0`. -/
def kthLargest (l : List ℚ) (K : ℕ) : ℚ :=
  (l.insertionSort (· ≤ ·)).getD (if K = 0 then 0 else l.length - K) 0

/-- Modelled from the spec: `np.percentile` (line 353, a library external to
the repository) with numpy's default linear interpolation over the sorted
data. -/
def np_percentile (l : List ℚ) (q : ℚ) : ℚ :=
  if l.length = 0 then 0
  else
    (l.insertionSort (· ≤ ·)).getD (q * ((l.length : ℚ) - 1) / 100).floor.toNat 0
      + (q * ((l.length : ℚ) - 1) / 100 - ⌊q * ((l.length : ℚ) - 1) / 100⌋) *
        ((l.insertionSort (· ≤ ·)).getD
          (min ((q * ((l.length : ℚ) - 1) / 100).floor.toNat + 1) (l.length - 1)) 0
          - (l.insertionSort (· ≤ ·)).getD (q * ((l.length : ℚ) - 1) / 100).floor.toNat 0)

/-- Embeds the per-row filtering of `get_role_heatmaps` (lines 341-357):
`none` is the `np.nan` sentinel for filtered-out bins.  The `top_k` branch
takes priority, then `percentile`, then `threshold`; with no filter the row
passes through.  Reshaping to the 2-D grid permutes nothing and is omitted. -/
def filter_heatmap (row : List ℚ) (threshold : Option ℚ) (top_k : Option ℕ)
    (percentile : Option ℚ) : List (Option ℚ) :=
  match top_k with
  | some K =>
      if K < row.length then
        row.map (fun v => if v < kthLargest row K then none else some v)
      else row.map some
  | none =>
      match percentile with
      | some pc =>
          row.map (fun v =>
            if v < (if (row.filter (fun u => decide (0 < u))) ≠ []
                    then np_percentile (row.filter (fun u => decide (0 < u))) pc
                    else 0)
            then none else some v)
      | none =>
          match threshold with
          | some t => row.map (fun v => if v < t then none else some v)
          | none => row.map some

/-- Embeds `get_role_heatmaps` (lines 315-360) on flattened basis rows. -/
def get_role_heatmaps (B : List (List ℚ)) (threshold : Option ℚ)
    (top_k : Option ℕ) (percentile : Option ℚ) : List (List (Option ℚ)) :=
  B.map (fun row => filter_heatmap row threshold top_k percentile)

/-- Shape predicate: `m` is an `r × c` matrix. -/
def IsShape (m : List (List ℚ)) (r c : ℕ) : Prop :=
  m.length = r ∧ ∀ row ∈ m, row.length = c

/-- All entries of the matrix are non-negative. -/
def matNonneg (m : List (List ℚ)) : Prop :=
  ∀ row ∈ m, ∀ x ∈ row, 0 ≤ x

end SportsNets

namespace SportsNets

/-! ## Helper lemmas about `mapOpt` -/

theorem mapOpt_length {α β : Type} (f : α → Option β) :
    ∀ {l : List α} {l2 : List β}, mapOpt f l = some l2 → l2.length = l.length := by
  intro l
  induction l with
  | nil =>
    intro l2 h
    simp [mapOpt] at h
    simp [← h]
  | cons a t ih =>
    intro l2 h
    cases hfa : f a with
    | none => simp [mapOpt, hfa] at h
    | some b =>
      cases hmt : mapOpt f t with
      | none => simp [mapOpt, hfa, hmt] at h
      | some bs =>
        simp [mapOpt, hfa, hmt] at h
        subst h
        simp [ih hmt]

theorem mapOpt_mem {α β : Type} (f : α → Option β) :
    ∀ {l : List α} {l2 : List β}, mapOpt f l = some l2 →
      ∀ b ∈ l2, ∃ a ∈ l, f a = some b := by
  intro l
  induction l with
  | nil =>
    intro l2 h b hb
    simp [mapOpt] at h
    subst h
    simp at hb
  | cons a t ih =>
    intro l2 h b hb
    cases hfa : f a with
    | none => simp [mapOpt, hfa] at h
    | some b0 =>
      cases hmt : mapOpt f t with
      | none => simp [mapOpt, hfa, hmt] at h
      | some bs =>
        simp [mapOpt, hfa, hmt] at h
        subst h
        rcases List.mem_cons.mp hb with hb | hb
        · exact ⟨a, by simp, by rw [hfa, hb]⟩
        · rcases ih hmt b hb with ⟨a2, ha2, hfa2⟩
          exact ⟨a2, by simp [ha2], hfa2⟩

theorem sum_const_of_mem (l : List ℕ) (c : ℕ) (h : ∀ x ∈ l, x = c) :
    l.sum = c * l.length := by
  induction l with
  | nil => simp
  | cons a t ih =>
    have ha : a = c := h a (by simp)
    have ht : ∀ x ∈ t, x = c := fun x hx => h x (by simp [hx])
    simp [List.sum_cons, ha, ih ht, Nat.mul_succ, Nat.add_comm]

theorem permute_row_length {α : Type} (row : List α) (idxs : List Nat)
    (r : List α) (h : permute_row row idxs = some r) :
    r.length = 2 * idxs.length := by
  unfold permute_row at h
  cases hm : mapOpt (fun j => do
      let x ← row[2 * j]?
      let y ← row[2 * j + 1]?
      pure [x, y]) idxs with
  | none => rw [hm] at h; simp at h
  | some parts =>
    rw [hm] at h
    simp at h
    subst h
    have hlen : parts.length = idxs.length := mapOpt_length _ hm
    have hmem : ∀ part ∈ parts, part.length = 2 := by
      intro part hpart
      rcases mapOpt_mem _ hm part hpart with ⟨j, _, hj⟩
      cases hx : row[2 * j]? with
      | none => rw [hx] at hj; simp at hj
      | some x =>
        cases hy : row[2 * j + 1]? with
        | none => rw [hx, hy] at hj; simp at hj
        | some y =>
          rw [hx, hy] at hj
          simp at hj
          simp [← hj]
    rw [List.length_flatten, sum_const_of_mem (parts.map List.length) 2]
    · simp [hlen]
    · intro x hx
      rcases List.mem_map.mp hx with ⟨part, hpart, hlenx⟩
      rw [← hlenx]
      exact hmem part hpart

/-! ## C8: fixed-mode scenario -/

/-- C8: with canonical slot ordering `[TW, LV, RV]`, slot-to-shirt map
`{TW:[1], LV:[20], RV:[15]}` and tracking order `[15, 1, 20]`, `permute_xy`
maps the input frame `[12,34, 56,3, 22,88]` to `[56,3, 22,88, 12,34]`. -/
theorem C8_fixed_mode_scenario :
    permute_xy [[(12 : ℤ), 34, 56, 3, 22, 88]] "4-2-3-1" [15, 1, 20]
      [("LV", [20]), ("TW", [1]), ("RV", [15])]
      [("4-2-3-1", ["TW", "LV", "RV"])]
      = some [[56, 3, 22, 88, 12, 34]] := by
  decide

/-! ## C10: `permute_xy` does not enforce one shirt per slot -/

/-- C10: `permute_xy` emits one (x,y) pair per shirt listed under each slot,
so a slot map that lists substitutes yields frames wider than twice the
number of slots; the fixed-mode one-shirt-per-slot precondition is not
enforced. -/
theorem C10_width_per_listed_shirt {α : Type} (xy out : List (List α))
    (f : String) (sti : List Nat) (pts : List (String × List Nat))
    (dp : List (String × List String)) (positions : List String) (os : List Nat)
    (hpos : dp.lookup f = some positions)
    (hos : ordered_shirts_of positions pts = some os)
    (h : permute_xy xy f sti pts dp = some out) :
    out.length = xy.length ∧ ∀ r ∈ out, r.length = 2 * os.length := by
  simp only [permute_xy, hpos, hos, Bind.bind, Option.bind] at h
  cases hoi : ordered_indices_of os sti with
  | none => rw [hoi] at h; simp at h
  | some oi =>
    rw [hoi] at h
    simp only [Option.some_bind] at h
    have hlen_oi : oi.length = os.length := mapOpt_length _ hoi
    constructor
    · exact mapOpt_length _ h
    · intro r hr
      rcases mapOpt_mem _ h r hr with ⟨row, _, hrow⟩
      rw [permute_row_length row oi r hrow, hlen_oi]

/-- C10 witness: a slot map whose `TW` slot lists two substitutes produces
frames of width 10 = 2 × 5 listed shirts, wider than 2 × 3 slots. -/
theorem C10_witness :
    ([[(3 : ℤ), 4, 7, 8, 9, 10, 5, 6, 1, 2]] : List (List ℤ)).length =
      ([[(1 : ℤ), 2, 3, 4, 5, 6, 7, 8, 9, 10]] : List (List ℤ)).length ∧
    ∀ r ∈ ([[(3 : ℤ), 4, 7, 8, 9, 10, 5, 6, 1, 2]] : List (List ℤ)),
      r.length = 2 * ([1, 77, 88, 20, 15] : List Nat).length :=
  C10_width_per_listed_shirt
    [[(1 : ℤ), 2, 3, 4, 5, 6, 7, 8, 9, 10]]
    [[(3 : ℤ), 4, 7, 8, 9, 10, 5, 6, 1, 2]]
    "F" [15, 1, 20, 77, 88]
    [("TW", [1, 77, 88]), ("LV", [20]), ("RV", [15])]
    [("F", ["TW", "LV", "RV"])]
    ["TW", "LV", "RV"] [1, 77, 88, 20, 15]
    (by decide) (by decide) (by decide)

/-! ## C2: orientation decision is derived from the match title -/

/-- C2 counterexample: two matches differing only in their title string get
different orientation treatment for the same team, because `process_xy`
string-matches the title against the hardcoded exception title. -/
theorem C2_counterexample :
    rotated_half match_where_away_team_starts_on_right "Home" ≠
      rotated_half "1. FC Köln:FC Bayern München" "Home" := by
  decide

/-- C2 amended: the orientation decision is derived by string-matching the
match title against the hardcoded constant
`match_where_away_team_starts_on_right`; any two matches whose titles both
differ from that constant receive identical treatment, while the exception
title receives the opposite treatment for either team. -/
theorem C2_amended_title_string_match (t1 t2 team : String)
    (h1 : t1 ≠ match_where_away_team_starts_on_right)
    (h2 : t2 ≠ match_where_away_team_starts_on_right)
    (hteam : team = "Home" ∨ team = "Away") :
    rotated_half t1 team = rotated_half t2 team ∧
    rotated_half match_where_away_team_starts_on_right team ≠
      rotated_half t1 team := by
  constructor
  · simp [rotated_half, h1, h2]
  · rcases hteam with h | h <;> subst h <;> simp [rotated_half, h1]

/-- C2 witness for the amended statement at concrete titles. -/
theorem C2_amended_witness :
    rotated_half "A:B" "Home" = rotated_half "C:D" "Home" ∧
    rotated_half match_where_away_team_starts_on_right "Home" ≠
      rotated_half "A:B" "Home" :=
  C2_amended_title_string_match "A:B" "C:D" "Home" (by decide) (by decide)
    (Or.inl rfl)

/-! ## Helper lemmas about the substitution-mode engine -/

theorem subsStep_head_valid (row : List (Option ℤ)) (b : Nat) (rest : List Nat)
    (v : ℤ) (h : row[2 * b]? = some (some v)) :
    subsStep row (b :: rest) = some (b, b :: rest) := by
  simp [subsStep, h]

theorem subsStep_head_missing (row : List (Option ℤ)) (b b2 : Nat)
    (rest : List Nat) (h : row[2 * b]? = some none) :
    subsStep row (b :: b2 :: rest) = some (b2, b2 :: rest) := by
  simp [subsStep, h]

theorem subsStep_last_missing (row : List (Option ℤ)) (b : Nat)
    (h : row[2 * b]? = some none) :
    subsStep row [b] = none := by
  simp [subsStep, h]

theorem subsStep_cases (row : List (Option ℤ)) (q : List Nat) (b : Nat)
    (q2 : List Nat) (h : subsStep row q = some (b, q2)) :
    b ∈ q2 ∧ (q2 = q ∨ q2 = q.tail) := by
  cases q with
  | nil => simp [subsStep] at h
  | cons a t =>
    cases hx : row[2 * a]? with
    | none => simp [subsStep, hx] at h
    | some x =>
      cases x with
      | none =>
        cases t with
        | nil => simp [subsStep, hx] at h
        | cons b2 rest =>
          rw [subsStep_head_missing row a b2 rest hx] at h
          simp at h
          obtain ⟨hb, hq⟩ := h
          subst hb; subst hq
          exact ⟨by simp, Or.inr rfl⟩
      | some v =>
        rw [subsStep_head_valid row a t v hx] at h
        simp at h
        obtain ⟨hb, hq⟩ := h
        subst hb; subst hq
        exact ⟨by simp, Or.inl rfl⟩

theorem subsStep_subset (row : List (Option ℤ)) (q : List Nat) (b : Nat)
    (q2 : List Nat) (h : subsStep row q = some (b, q2)) : q2 ⊆ q := by
  rcases (subsStep_cases row q b q2 h).2 with h2 | h2
  · subst h2; exact fun x hx => hx
  · subst h2; exact (List.tail_sublist q).subset

theorem subsFrame_append (row : List (Option ℤ)) (qs1 qs2 : List (List Nat))
    (o1 o2 : List (Option ℤ)) (t1 t2 : List (List Nat))
    (h1 : subsFrame row qs1 = some (o1, t1))
    (h2 : subsFrame row qs2 = some (o2, t2)) :
    subsFrame row (qs1 ++ qs2) = some (o1 ++ o2, t1 ++ t2) := by
  induction qs1 generalizing o1 t1 with
  | nil =>
    simp [subsFrame] at h1
    obtain ⟨ho, ht⟩ := h1
    subst ho; subst ht
    simpa using h2
  | cons q qs ih =>
    cases hs : subsStep row q with
    | none => simp [subsFrame, hs] at h1
    | some p =>
      obtain ⟨b, q2⟩ := p
      cases hx : row[2 * b]? with
      | none => simp [subsFrame, hs, hx] at h1
      | some x =>
        cases hy : row[2 * b + 1]? with
        | none => simp [subsFrame, hs, hx, hy] at h1
        | some y =>
          cases hrest : subsFrame row qs with
          | none => simp [subsFrame, hs, hx, hy, hrest] at h1
          | some pr =>
            obtain ⟨orest, trest⟩ := pr
            simp [subsFrame, hs, hx, hy, hrest] at h1
            obtain ⟨ho, ht⟩ := h1
            subst ho; subst ht
            simp [subsFrame, hs, hx, hy, ih orest trest hrest]

theorem subsFrame_none_tail (row : List (Option ℤ)) (q : List Nat)
    (qs : List (List Nat)) (h : subsFrame row qs = none) :
    subsFrame row (q :: qs) = none := by
  cases hs : subsStep row q with
  | none => simp [subsFrame, hs]
  | some p =>
    obtain ⟨b, q2⟩ := p
    cases hx : row[2 * b]? with
    | none => simp [subsFrame, hs, hx]
    | some x =>
      cases hy : row[2 * b + 1]? with
      | none => simp [subsFrame, hs, hx, hy]
      | some y => simp [subsFrame, hs, hx, hy, h]

theorem subsFrame_exhausted (row : List (Option ℤ)) (b : Nat)
    (qs1 qs2 : List (List Nat)) (h : row[2 * b]? = some none) :
    subsFrame row (qs1 ++ [b] :: qs2) = none := by
  induction qs1 with
  | nil => simp [subsFrame, subsStep_last_missing row b h]
  | cons q qs ih => exact subsFrame_none_tail row q _ ih

theorem subsRun_frame_none (row : List (Option ℤ))
    (post : List (List (Option ℤ))) (qs : List (List Nat))
    (h : subsFrame row qs = none) : subsRun (row :: post) qs = none := by
  simp [subsRun, h]

theorem subsRun_append_none (pre rest : List (List (Option ℤ)))
    (qs : List (List Nat)) (o1 : List (List (Option ℤ)))
    (qmid : List (List Nat)) (h1 : subsRun pre qs = some (o1, qmid))
    (h2 : subsRun rest qmid = none) : subsRun (pre ++ rest) qs = none := by
  induction pre generalizing qs o1 with
  | nil =>
    simp [subsRun] at h1
    obtain ⟨ho, hq⟩ := h1
    subst ho; subst hq
    simpa using h2
  | cons row pre2 ih =>
    cases hf : subsFrame row qs with
    | none => simp [subsRun, hf] at h1
    | some p =>
      obtain ⟨outRow, qs2⟩ := p
      cases hr : subsRun pre2 qs2 with
      | none => simp [subsRun, hf, hr] at h1
      | some pr =>
        obtain ⟨outRest, qs3⟩ := pr
        simp [subsRun, hf, hr] at h1
        obtain ⟨ho, hq⟩ := h1
        subst hq
        simp [subsRun, hf, ih qs2 outRest hr]

/-! ## C1: substitution mode advances at most once per frame -/

/-- C1 counterexample: slot `TW` has candidates at tracking indices 0, 1, 2;
in a frame where indices 0 and 1 both hold the missing marker and index 2
holds valid data (5, 6), the engine pops only once and emits the missing
marker instead of advancing to the first non-missing candidate. -/
theorem C1_counterexample :
    permute_xy_with_subs [[none, none, none, none, some 5, some 6]] "F"
      [1, 2, 3] [("TW", [1, 2, 3])] [("F", ["TW"])]
      = some [[none, none]] ∧
    ([[(none : Option ℤ), none]] ≠ [[some 5, some 6]]) := by
  constructor
  · decide
  · decide

/-- C1 amended: per frame a slot advances its queue at most once.  If the
head candidate's stored x entry is the missing marker, the head is popped and
the slot outputs the next candidate's stored entries, even when those are
themselves the missing marker; if the head's x entry is valid, the head's
entries are output and the queue is unchanged. -/
theorem C1_amended_single_advance (row : List (Option ℤ))
    (qs1 qs2 : List (List Nat)) (o1 o2 : List (Option ℤ))
    (t1 t2 : List (List Nat)) (b b2 : Nat) (rest rest2 : List Nat)
    (x2 y2 yv : Option ℤ) (xv : ℤ)
    (hpre : subsFrame row qs1 = some (o1, t1))
    (hsuf : subsFrame row qs2 = some (o2, t2)) :
    (row[2 * b]? = some none → row[2 * b2]? = some x2 →
      row[2 * b2 + 1]? = some y2 →
      subsFrame row (qs1 ++ (b :: b2 :: rest) :: qs2)
        = some (o1 ++ x2 :: y2 :: o2, t1 ++ (b2 :: rest) :: t2)) ∧
    (row[2 * b]? = some (some xv) → row[2 * b + 1]? = some yv →
      subsFrame row (qs1 ++ (b :: rest2) :: qs2)
        = some (o1 ++ some xv :: yv :: o2, t1 ++ (b :: rest2) :: t2)) := by
  constructor
  · intro hmiss hx2 hy2
    have hmid : subsFrame row ((b :: b2 :: rest) :: qs2)
        = some (x2 :: y2 :: o2, (b2 :: rest) :: t2) := by
      simp [subsFrame, subsStep_head_missing row b b2 rest hmiss, hx2, hy2, hsuf]
    exact subsFrame_append row qs1 _ o1 _ t1 _ hpre hmid
  · intro hx hy
    have hmid : subsFrame row ((b :: rest2) :: qs2)
        = some (some xv :: yv :: o2, (b :: rest2) :: t2) := by
      simp [subsFrame, subsStep_head_valid row b rest2 xv hx, hx, hy, hsuf]
    exact subsFrame_append row qs1 _ o1 _ t1 _ hpre hmid

/-- C1 witness: the advancing branch of the amended statement evaluated at a
concrete frame where both the head and the next candidate are missing. -/
theorem C1_amended_witness :
    subsFrame [none, none, none, none] [[0, 1]]
      = some ([none, none], [[1]]) :=
  (C1_amended_single_advance [none, none, none, none] [] [] [] [] [] []
      0 1 [] [] none none none 0 rfl rfl).1 rfl rfl rfl

/-! ## C3: queue exhaustion aborts the whole unit -/

/-- C3: if, at some frame, a slot's queue holds a single candidate whose
position is the missing marker, the pop empties the queue and the engine
raises (`IndexError` on reading the head of the empty queue): the whole call
to `permute_xy_with_subs` fails, producing no output for the failing frame or
any other frame. -/
theorem C3_exhaustion_aborts (f : String) (sti : List Nat)
    (pts : List (String × List Nat)) (dp : List (String × List String))
    (pre post : List (List (Option ℤ))) (row : List (Option ℤ))
    (qs0 qmid qs1 qs2 : List (List Nat)) (b : Nat)
    (hq0 : initial_queues f sti pts dp = some qs0)
    (hpre : subsQueuesAfter pre qs0 = some qmid)
    (hsplit : qmid = qs1 ++ [b] :: qs2)
    (hmiss : row[2 * b]? = some none) :
    permute_xy_with_subs (pre ++ row :: post) f sti pts dp = none := by
  rcases Option.map_eq_some'.mp hpre with ⟨⟨o1, qmid2⟩, hrun, hsnd⟩
  simp at hsnd
  rw [hsnd] at hrun
  have hframe : subsFrame row qmid = none := by
    rw [hsplit]; exact subsFrame_exhausted row b qs1 qs2 hmiss
  have hrest : subsRun (row :: post) qmid = none :=
    subsRun_frame_none row post qmid hframe
  have hall : subsRun (pre ++ row :: post) qs0 = none :=
    subsRun_append_none pre (row :: post) qs0 o1 qmid hrun hrest
  simp [permute_xy_with_subs, hq0, hall]

/-- C3 witness: a single slot whose only candidate is missing in the first
frame makes the whole call fail. -/
theorem C3_witness :
    permute_xy_with_subs [[none, none]] "F" [1] [("TW", [1])]
      [("F", ["TW"])] = none :=
  C3_exhaustion_aborts "F" [1] [("TW", [1])] [("F", ["TW"])] [] []
    [none, none] [[0]] [[0]] [] [] 0 rfl rfl rfl rfl

/-! ## C4: queue advancement is irreversible -/

theorem slotSelAux_mem (rows : List (List (Option ℤ))) :
    ∀ (q : List Nat) (sels : List Nat), slotSelAux rows q = some sels →
      ∀ s ∈ sels, s ∈ q := by
  induction rows with
  | nil =>
    intro q sels h s hs
    simp [slotSelAux] at h
    subst h
    simp at hs
  | cons row rest ih =>
    intro q sels h s hs
    cases hstep : subsStep row q with
    | none => simp [slotSelAux, hstep] at h
    | some p =>
      obtain ⟨b, q2⟩ := p
      cases hrec : slotSelAux rest q2 with
      | none => simp [slotSelAux, hstep, hrec] at h
      | some sels2 =>
        simp [slotSelAux, hstep, hrec] at h
        subst h
        rcases List.mem_cons.mp hs with hsb | hss
        · rw [hsb]
          exact subsStep_subset row q b q2 hstep (subsStep_cases row q b q2 hstep).1
        · exact subsStep_subset row q b q2 hstep (ih q2 sels2 hrec s hss)

theorem slotSelAux_length (rows : List (List (Option ℤ))) :
    ∀ (q : List Nat) (sels : List Nat), slotSelAux rows q = some sels →
      sels.length = rows.length := by
  induction rows with
  | nil =>
    intro q sels h
    simp [slotSelAux] at h
    simp [← h]
  | cons row rest ih =>
    intro q sels h
    cases hstep : subsStep row q with
    | none => simp [slotSelAux, hstep] at h
    | some p =>
      obtain ⟨b, q2⟩ := p
      cases hrec : slotSelAux rest q2 with
      | none => simp [slotSelAux, hstep, hrec] at h
      | some sels2 =>
        simp [slotSelAux, hstep, hrec] at h
        subst h
        simp [ih q2 sels2 hrec]

theorem slotSelAux_append (pre post : List (List (Option ℤ))) :
    ∀ (q : List Nat) (sels : List Nat),
      slotSelAux (pre ++ post) q = some sels →
      ∃ s1 qmid s2, slotSelAux pre q = some s1 ∧
        slotQueueAfter pre q = some qmid ∧ slotSelAux post qmid = some s2 ∧
        sels = s1 ++ s2 := by
  induction pre with
  | nil =>
    intro q sels h
    exact ⟨[], q, sels, rfl, rfl, by simpa using h, by simp⟩
  | cons row rest ih =>
    intro q sels h
    cases hstep : subsStep row q with
    | none => simp [slotSelAux, hstep] at h
    | some p =>
      obtain ⟨b, q2⟩ := p
      cases hrec : slotSelAux (rest ++ post) q2 with
      | none => simp [slotSelAux, hstep, hrec] at h
      | some sels2 =>
        simp [slotSelAux, hstep, hrec] at h
        subst h
        rcases ih q2 sels2 hrec with ⟨s1, qmid, s2, hs1, hq, hs2, hcat⟩
        refine ⟨b :: s1, qmid, s2, ?_, ?_, hs2, by simp [hcat]⟩
        · simp [slotSelAux, hstep, hs1]
        · simp [slotQueueAfter, hstep, hq]

theorem slotQueueAfter_sublist (rows : List (List (Option ℤ))) :
    ∀ (q qmid : List Nat), slotQueueAfter rows q = some qmid →
      qmid.Sublist q := by
  induction rows with
  | nil =>
    intro q qmid h
    simp [slotQueueAfter] at h
    simp [h]
  | cons row rest ih =>
    intro q qmid h
    cases hstep : subsStep row q with
    | none => simp [slotQueueAfter, hstep] at h
    | some p =>
      obtain ⟨b, q2⟩ := p
      simp [slotQueueAfter, hstep] at h
      have h2 : q2.Sublist q := by
        rcases (subsStep_cases row q b q2 hstep).2 with hq | hq
        · simp [hq]
        · subst hq; exact List.tail_sublist q
      exact (ih q2 qmid h).trans h2

/-- C4: queue advancement is irreversible.  If the slot's queue (seeded
without duplicate tracking indices) has candidate `c` at its head when frame
`row` is processed, and `c`'s position in that frame is the missing marker so
that `c` is popped, then no later frame's selection for that slot is `c`,
whatever the later frames hold. -/
theorem C4_no_reselect_after_pop (pre post : List (List (Option ℤ)))
    (row : List (Option ℤ)) (q0 qrest : List Nat) (c : Nat)
    (sels : List Nat) (i : Nat)
    (hnd : q0.Nodup)
    (hpre : slotQueueAfter pre q0 = some (c :: qrest))
    (hmiss : row[2 * c]? = some none)
    (hrun : slotSelAux (pre ++ row :: post) q0 = some sels)
    (hi : pre.length < i) :
    sels[i]? ≠ some c := by
  rcases slotSelAux_append pre (row :: post) q0 sels hrun with
    ⟨s1, qmid, s2, hs1, hqmid, hs2, hcat⟩
  rw [hpre] at hqmid
  have hqe : qmid = c :: qrest := (Option.some.inj hqmid).symm
  subst hqe
  have hndq : (c :: qrest).Nodup :=
    (slotQueueAfter_sublist pre q0 (c :: qrest) hpre).nodup hnd
  have hcnot : c ∉ qrest := (List.nodup_cons.mp hndq).1
  cases qrest with
  | nil =>
    rw [show ([c] : List Nat) = c :: ([] : List Nat) from rfl] at hs2
    simp [slotSelAux, subsStep_last_missing row c hmiss] at hs2
  | cons c2 qr2 =>
    have hstep : subsStep row (c :: c2 :: qr2) = some (c2, c2 :: qr2) :=
      subsStep_head_missing row c c2 qr2 hmiss
    cases hrec : slotSelAux post (c2 :: qr2) with
    | none => simp [slotSelAux, hstep, hrec] at hs2
    | some srest =>
      simp [slotSelAux, hstep, hrec] at hs2
      have hlen1 : s1.length = pre.length := slotSelAux_length pre q0 s1 hs1
      intro hEq
      rw [hcat] at hEq
      rw [List.getElem?_append_right (by omega)] at hEq
      rw [← hs2] at hEq
      have hk : 1 ≤ i - s1.length := by omega
      cases hki : i - s1.length with
      | zero => omega
      | succ k =>
        rw [hki] at hEq
        simp at hEq
        obtain ⟨hk2, hc⟩ := List.getElem?_eq_some_iff.mp hEq
        have hcmem : c ∈ srest := hc ▸ List.getElem_mem hk2
        have : c ∈ c2 :: qr2 := slotSelAux_mem post (c2 :: qr2) srest hrec c hcmem
        exact hcnot this

/-- C4 witness: candidate 0 is popped at frame 0; although its data is valid
again at frame 1, the selection at frame 1 is candidate 1, not 0. -/
theorem C4_witness :
    ([1, 1] : List Nat)[1]? ≠ some 0 :=
  C4_no_reselect_after_pop [] [[some 9, some 9, some 7, some 7]]
    [none, none, some 5, some 6] [0, 1] [1] 0 [1, 1] 1
    (by decide) rfl rfl (by decide) (by decide)

/-! ## C6: `normalize_to_occupancy` is idempotent -/

theorem list_sum_map_div (l : List ℚ) (t : ℚ) :
    (l.map (· / t)).sum = l.sum / t := by
  induction l with
  | nil => simp
  | cons a r ih => simp [ih, add_div]

theorem matSum_matDiv (m : List (List ℚ)) (t : ℚ) :
    matSum (matDiv m t) = matSum m / t := by
  induction m with
  | nil => simp [matSum, matDiv]
  | cons r m ih =>
    simp only [matSum, matDiv, List.map_cons, List.sum_cons] at ih ⊢
    rw [list_sum_map_div, ih, add_div]

theorem matDiv_one (m : List (List ℚ)) : matDiv m 1 = m := by
  simp [matDiv, div_one]

/-- C6: `normalize_to_occupancy` is idempotent on non-negative count
matrices, and a matrix whose total is already 1 is returned unchanged. -/
theorem C6_normalize_idempotent (m : List (List ℚ))
    (_hnn : ∀ r ∈ m, ∀ x ∈ r, 0 ≤ x) :
    normalize_to_occupancy (normalize_to_occupancy m) = normalize_to_occupancy m
      ∧ (matSum m = 1 → normalize_to_occupancy m = m) := by
  constructor
  · by_cases hs : matSum m > 0
    · have h1 : normalize_to_occupancy m = matDiv m (matSum m) := by
        unfold normalize_to_occupancy
        rw [if_pos hs]
      have h2 : matSum (matDiv m (matSum m)) = 1 := by
        rw [matSum_matDiv]
        exact div_self (ne_of_gt hs)
      rw [h1]
      unfold normalize_to_occupancy
      rw [h2, if_pos one_pos, matDiv_one]
    · have h1 : normalize_to_occupancy m = m := by
        unfold normalize_to_occupancy
        rw [if_neg hs]
      rw [h1, h1]
  · intro h1
    unfold normalize_to_occupancy
    rw [h1, if_pos one_pos, matDiv_one]

/-- C6 witness at a concrete matrix with total 4 and at total 1. -/
theorem C6_witness :
    normalize_to_occupancy (normalize_to_occupancy [[(2 : ℚ), 2]]) =
      normalize_to_occupancy [[(2 : ℚ), 2]] ∧
    (matSum [[(2 : ℚ), 2]] = 1 →
      normalize_to_occupancy [[(2 : ℚ), 2]] = [[(2 : ℚ), 2]]) :=
  C6_normalize_idempotent [[2, 2]] (by decide)

/-! ## C9: dominant-role label is the first maximal index -/

theorem argmaxAux_spec :
    ∀ (xs pre : List ℚ) (cur : ℚ) (best : ℕ),
      best < pre.length →
      pre[best]? = some cur →
      (∀ x ∈ pre, x ≤ cur) →
      (∀ j, j < best → ∀ u, pre[j]? = some u → u < cur) →
      argmaxAux xs cur pre.length best < (pre ++ xs).length ∧
      ∃ mv, (pre ++ xs)[argmaxAux xs cur pre.length best]? = some mv ∧
        (∀ x ∈ pre ++ xs, x ≤ mv) ∧
        (∀ j, j < argmaxAux xs cur pre.length best → ∀ u,
          (pre ++ xs)[j]? = some u → u < mv) := by
  intro xs
  induction xs with
  | nil =>
    intro pre cur best hb hbv hmax hfirst
    refine ⟨by simpa [argmaxAux] using hb, cur, ?_, ?_, ?_⟩
    · simpa [argmaxAux] using hbv
    · simpa [argmaxAux] using hmax
    · simpa [argmaxAux] using hfirst
  | cons x xs ih =>
    intro pre cur best hb hbv hmax hfirst
    have hsplit : pre ++ x :: xs = (pre ++ [x]) ++ xs := by simp
    by_cases hlt : cur < x
    · have heq : argmaxAux (x :: xs) cur pre.length best
          = argmaxAux xs x (pre ++ [x]).length pre.length := by
        simp [argmaxAux, hlt]
      have h1 : pre.length < (pre ++ [x]).length := by simp
      have h2 : (pre ++ [x])[pre.length]? = some x := by
        rw [List.getElem?_append_right (le_refl _)]
        simp
      have h3 : ∀ y ∈ pre ++ [x], y ≤ x := by
        intro y hy
        rcases List.mem_append.mp hy with hy | hy
        · exact le_of_lt (lt_of_le_of_lt (hmax y hy) hlt)
        · simp at hy
          rw [hy]
      have h4 : ∀ j, j < pre.length → ∀ u, (pre ++ [x])[j]? = some u → u < x := by
        intro j hj u hu
        rw [List.getElem?_append_left hj] at hu
        obtain ⟨hlen, hval⟩ := List.getElem?_eq_some_iff.mp hu
        exact lt_of_le_of_lt (hmax u (hval ▸ List.getElem_mem hlen)) hlt
      rw [heq, hsplit]
      exact ih (pre ++ [x]) x pre.length h1 h2 h3 h4
    · have heq : argmaxAux (x :: xs) cur pre.length best
          = argmaxAux xs cur (pre ++ [x]).length best := by
        simp [argmaxAux, hlt]
      have h1 : best < (pre ++ [x]).length := by
        simp only [List.length_append, List.length_cons]
        omega
      have h2 : (pre ++ [x])[best]? = some cur := by
        rw [List.getElem?_append_left hb]
        exact hbv
      have h3 : ∀ y ∈ pre ++ [x], y ≤ cur := by
        intro y hy
        rcases List.mem_append.mp hy with hy | hy
        · exact hmax y hy
        · simp at hy
          rw [hy]
          exact le_of_not_lt hlt
      have h4 : ∀ j, j < best → ∀ u, (pre ++ [x])[j]? = some u → u < cur := by
        intro j hj u hu
        rw [List.getElem?_append_left (lt_trans hj hb)] at hu
        exact hfirst j hj u hu
      rw [heq, hsplit]
      exact ih (pre ++ [x]) cur best h1 h2 h3 h4

theorem np_argmax_spec (l : List ℚ) (hne : l ≠ []) :
    np_argmax l < l.length ∧
    ∃ mv, l[np_argmax l]? = some mv ∧ (∀ x ∈ l, x ≤ mv) ∧
      (∀ j, j < np_argmax l → ∀ u, l[j]? = some u → u < mv) := by
  cases l with
  | nil => exact absurd rfl hne
  | cons x xs =>
    have h := argmaxAux_spec xs [x] x 0 (by simp) (by simp) (by simp)
      (by intro j hj; omega)
    simpa [np_argmax] using h

/-- C9: for every weight matrix row, the dominant-role label produced at line
297 is the first maximal index of the row: the labelled entry is an upper
bound of the row, and every strictly earlier entry is strictly smaller, so
ties are broken toward the lowest role index. -/
theorem C9_dominant_role_first_max (W : List (List ℚ)) (p : ℕ) (row : List ℚ)
    (hrow : W[p]? = some row) (hne : row ≠ []) :
    (player_role_assignments W)[p]? = some (np_argmax row) ∧
    np_argmax row < row.length ∧
    (∀ x ∈ row, x ≤ row.getD (np_argmax row) 0) ∧
    (∀ j, j < np_argmax row → ∀ u, row[j]? = some u →
      u < row.getD (np_argmax row) 0) := by
  obtain ⟨hlt, mv, hv, hub, hstrict⟩ := np_argmax_spec row hne
  have hgd : row.getD (np_argmax row) 0 = mv := by
    rw [List.getD_eq_getElem?_getD, hv]
    rfl
  refine ⟨?_, hlt, ?_, ?_⟩
  · simp [player_role_assignments, List.getElem?_map, hrow]
  · rw [hgd]
    exact hub
  · rw [hgd]
    exact hstrict

/-- C9 witness: row `[1, 3, 3, 2]` gets label 1, the first of the tied
maxima. -/
theorem C9_witness :
    (player_role_assignments [[(1 : ℚ), 3, 3, 2]])[0]?
        = some (np_argmax [(1 : ℚ), 3, 3, 2]) ∧
    np_argmax [(1 : ℚ), 3, 3, 2] < ([(1 : ℚ), 3, 3, 2] : List ℚ).length ∧
    (∀ x ∈ [(1 : ℚ), 3, 3, 2],
      x ≤ ([(1 : ℚ), 3, 3, 2] : List ℚ).getD (np_argmax [(1 : ℚ), 3, 3, 2]) 0) ∧
    (∀ j, j < np_argmax [(1 : ℚ), 3, 3, 2] →
      ∀ u, ([(1 : ℚ), 3, 3, 2] : List ℚ)[j]? = some u →
        u < ([(1 : ℚ), 3, 3, 2] : List ℚ).getD (np_argmax [(1 : ℚ), 3, 3, 2]) 0) :=
  C9_dominant_role_first_max [[1, 3, 3, 2]] 0 [1, 3, 3, 2] rfl (by decide)

/-! ## C7: heatmap filtering -/

theorem countP_ge_kthLargest (l : List ℚ) (K : ℕ) (h1 : 1 ≤ K)
    (h2 : K ≤ l.length) :
    K ≤ l.countP (fun v => decide (kthLargest l K ≤ v)) := by
  have hperm : (l.insertionSort (· ≤ ·)).Perm l := List.perm_insertionSort _ l
  have hlen : (l.insertionSort (· ≤ ·)).length = l.length :=
    List.length_insertionSort _ l
  have hsorted : (l.insertionSort (· ≤ ·)).Sorted (· ≤ ·) :=
    List.sorted_insertionSort _ l
  set s := l.insertionSort (· ≤ ·) with hsdef
  set p : ℚ → Bool := fun v => decide (kthLargest l K ≤ v) with hp
  rw [← hperm.countP_eq]
  have hidx : l.length - K < s.length := by omega
  have htv : kthLargest l K = s[l.length - K] := by
    unfold kthLargest
    rw [if_neg (by omega), ← hsdef, List.getD_eq_getElem?_getD,
      List.getElem?_eq_getElem hidx]
    rfl
  have hall : ∀ a ∈ s.drop (l.length - K), p a := by
    intro a ha
    obtain ⟨j, hj⟩ := List.mem_iff_getElem?.mp ha
    rw [List.getElem?_drop] at hj
    obtain ⟨hjb, hja⟩ := List.getElem?_eq_some_iff.mp hj
    rw [hp]
    simp only [decide_eq_true_eq]
    rw [htv, ← hja]
    rcases Nat.eq_zero_or_pos j with hj0 | hj0
    · subst hj0
      simp
    · exact List.pairwise_iff_getElem.mp hsorted _ _ hidx hjb (by omega)
  have hdrop : (s.drop (l.length - K)).countP p = K := by
    rw [List.countP_eq_length.mpr hall, List.length_drop]
    omega
  have hsplitS : s.take (l.length - K) ++ s.drop (l.length - K) = s :=
    List.take_append_drop _ _
  have hcount : s.countP p =
      (s.take (l.length - K)).countP p + (s.drop (l.length - K)).countP p := by
    conv_lhs => rw [← hsplitS]
    exact List.countP_append _ _ _
  omega

/-- C7 counterexample: with `top_k = 2` on the row `[1, 1, 1]` (three bins
tied at the 2nd-largest value) all three entries survive, so "exactly the K
largest entries remain" fails. -/
theorem C7_counterexample :
    get_role_heatmaps [[1, 1, 1]] none (some 2) none
      = [[some 1, some 1, some 1]] ∧
    ([some (1 : ℚ), some 1, some 1] : List (Option ℚ)).countP
        (fun o => o.isSome) = 3 ∧ (3 : ℕ) ≠ 2 := by
  refine ⟨by decide, by decide, by decide⟩

/-- C7 amended: exactly one filter is applied — with `top_k` supplied the
`threshold` and `percentile` arguments are ignored — and for `1 ≤ K < bins`
the surviving entries are exactly those at least the K-th largest value:
survivors keep their original value (zero included, never coerced), the rest
become the `none` sentinel, and at least K entries survive (ties at the
K-th value can make more than K survive). -/
theorem C7_amended_filters (B : List (List ℚ)) (t pc : Option ℚ) (K : ℕ)
    (row : List ℚ) (r : ℕ)
    (hK1 : 1 ≤ K) (hK2 : K < row.length) (hrow : B[r]? = some row) :
    get_role_heatmaps B t (some K) pc = get_role_heatmaps B none (some K) none ∧
    (get_role_heatmaps B t (some K) pc)[r]?
      = some (filter_heatmap row t (some K) pc) ∧
    (filter_heatmap row t (some K) pc).length = row.length ∧
    (∀ (j : ℕ) (u : ℚ), row[j]? = some u → kthLargest row K ≤ u →
      (filter_heatmap row t (some K) pc)[j]? = some (some u)) ∧
    (∀ (j : ℕ) (u : ℚ), row[j]? = some u → u < kthLargest row K →
      (filter_heatmap row t (some K) pc)[j]? = some none) ∧
    K ≤ (filter_heatmap row t (some K) pc).countP (fun o => o.isSome) := by
  have hbr0 : filter_heatmap row t (some K) pc
      = if K < row.length then
          row.map (fun v => if v < kthLargest row K then none else some v)
        else row.map some := rfl
  have hbr : filter_heatmap row t (some K) pc
      = row.map (fun v => if v < kthLargest row K then none else some v) := by
    rw [hbr0, if_pos hK2]
  refine ⟨rfl, ?_, ?_, ?_, ?_, ?_⟩
  · simp [get_role_heatmaps, List.getElem?_map, hrow]
  · rw [hbr]
    simp
  · intro j u hju hge
    rw [hbr, List.getElem?_map, hju]
    simp [not_lt.mpr hge]
  · intro j u hju hltv
    rw [hbr, List.getElem?_map, hju]
    simp [hltv]
  · rw [hbr, List.countP_map]
    have hfun : ∀ v : ℚ,
        (Option.isSome ∘ fun v => if v < kthLargest row K then none else some v) v
          = decide (kthLargest row K ≤ v) := by
      intro v
      by_cases hv : v < kthLargest row K
      · simp [hv, not_le.mpr hv]
      · simp [hv, not_lt.mp hv]
    rw [List.countP_congr (fun v _ => by rw [hfun v])]
    exact countP_ge_kthLargest row K hK1 (le_of_lt hK2)

/-- C7 witness: `top_k = 1` on the row `[3, 1, 2]` with extraneous threshold
and percentile arguments supplied. -/
theorem C7_witness :
    get_role_heatmaps [[(3 : ℚ), 1, 2]] (some 5) (some 1) (some 50)
      = get_role_heatmaps [[(3 : ℚ), 1, 2]] none (some 1) none ∧
    (get_role_heatmaps [[(3 : ℚ), 1, 2]] (some 5) (some 1) (some 50))[0]?
      = some (filter_heatmap [(3 : ℚ), 1, 2] (some 5) (some 1) (some 50)) ∧
    (filter_heatmap [(3 : ℚ), 1, 2] (some 5) (some 1) (some 50)).length
      = ([(3 : ℚ), 1, 2] : List ℚ).length ∧
    (∀ (j : ℕ) (u : ℚ), ([(3 : ℚ), 1, 2] : List ℚ)[j]? = some u →
      kthLargest [(3 : ℚ), 1, 2] 1 ≤ u →
      (filter_heatmap [(3 : ℚ), 1, 2] (some 5) (some 1) (some 50))[j]?
        = some (some u)) ∧
    (∀ (j : ℕ) (u : ℚ), ([(3 : ℚ), 1, 2] : List ℚ)[j]? = some u →
      u < kthLargest [(3 : ℚ), 1, 2] 1 →
      (filter_heatmap [(3 : ℚ), 1, 2] (some 5) (some 1) (some 50))[j]?
        = some none) ∧
    1 ≤ (filter_heatmap [(3 : ℚ), 1, 2] (some 5) (some 1) (some 50)).countP
        (fun o => o.isSome) :=
  C7_amended_filters [[3, 1, 2]] (some 5) (some 50) 1 [3, 1, 2] 0
    (by decide) (by decide) rfl

/-! ## C5: counting lemmas -/

theorem modifyAt_length {α : Type} :
    ∀ (l : List α) (i : ℕ) (f : α → α), (modifyAt l i f).length = l.length := by
  intro l
  induction l with
  | nil => intro i f; rfl
  | cons a t ih =>
    intro i f
    cases i with
    | zero => rfl
    | succ n => simp [modifyAt, ih n f]

theorem mem_modifyAt {α : Type} :
    ∀ (l : List α) (i : ℕ) (f : α → α) (x : α), x ∈ modifyAt l i f →
      x ∈ l ∨ ∃ y ∈ l, x = f y := by
  intro l
  induction l with
  | nil => intro i f x hx; simp [modifyAt] at hx
  | cons a t ih =>
    intro i f x hx
    cases i with
    | zero =>
      rcases List.mem_cons.mp hx with h | h
      · exact Or.inr ⟨a, by simp, h⟩
      · exact Or.inl (List.mem_cons_of_mem a h)
    | succ n =>
      rcases List.mem_cons.mp hx with h | h
      · exact Or.inl (by simp [h])
      · rcases ih n f x h with h2 | ⟨y, hy, hxy⟩
        · exact Or.inl (List.mem_cons_of_mem a h2)
        · exact Or.inr ⟨y, List.mem_cons_of_mem a hy, hxy⟩

theorem modifyAt_sum_add_one :
    ∀ (l : List ℚ) (i : ℕ), i < l.length →
      (modifyAt l i (· + 1)).sum = l.sum + 1 := by
  intro l
  induction l with
  | nil => intro i hi; simp at hi
  | cons a t ih =>
    intro i hi
    cases i with
    | zero =>
      simp [modifyAt]
      ring
    | succ n =>
      simp only [modifyAt, List.sum_cons]
      rw [ih n (by simpa using hi)]
      ring

theorem matSum_incr (xb : ℕ) :
    ∀ (m : List (List ℚ)) (yb : ℕ), yb < m.length →
      (∀ row ∈ m, xb < row.length) →
      matSum (incr m yb xb) = matSum m + 1 := by
  intro m
  induction m with
  | nil => intro yb h; simp at h
  | cons r t ih =>
    intro yb hyb hx
    cases yb with
    | zero =>
      simp only [incr, modifyAt, matSum, List.map_cons, List.sum_cons]
      rw [modifyAt_sum_add_one r xb (hx r (by simp))]
      ring
    | succ n =>
      simp only [incr, modifyAt, matSum, List.map_cons, List.sum_cons]
      have h2 := ih n (by simpa using hyb) (fun row hrow => hx row (by simp [hrow]))
      simp only [incr, matSum] at h2
      rw [h2]
      ring

theorem shape_incr (m : List (List ℚ)) (yb xb r c : ℕ)
    (h : IsShape m r c) : IsShape (incr m yb xb) r c := by
  obtain ⟨h1, h2⟩ := h
  constructor
  · rw [incr, modifyAt_length, h1]
  · intro row hrow
    rcases mem_modifyAt _ _ _ _ hrow with h3 | ⟨y, hy, hxy⟩
    · exact h2 row h3
    · rw [hxy, modifyAt_length]
      exact h2 y hy

theorem nonneg_incr (m : List (List ℚ)) (yb xb : ℕ)
    (h : matNonneg m) : matNonneg (incr m yb xb) := by
  intro row hrow x hx
  rcases mem_modifyAt _ _ _ _ hrow with h3 | ⟨y, hy, hxy⟩
  · exact h row h3 x hx
  · rw [hxy] at hx
    rcases mem_modifyAt _ _ _ _ hx with h4 | ⟨z, hz, hxz⟩
    · exact h y hy x h4
    · rw [hxz]
      have := h y hy z hz
      linarith

theorem clipIdx_lt (i : ℤ) (n : ℕ) (h : 1 ≤ n) : clipIdx i n < n := by
  unfold clipIdx
  have h1 : min i ((n : ℤ) - 1) ≤ (n : ℤ) - 1 := min_le_right _ _
  have h2 : max 0 (min i ((n : ℤ) - 1)) ≤ (n : ℤ) - 1 :=
    max_le (by omega) h1
  omega

theorem shape_zeros (r c : ℕ) : IsShape (zeros r c) r c := by
  constructor
  · simp [zeros]
  · intro row hrow
    rw [List.eq_of_mem_replicate hrow]
    simp

theorem nonneg_zeros (r c : ℕ) : matNonneg (zeros r c) := by
  intro row hrow x hx
  rw [List.eq_of_mem_replicate hrow] at hx
  rw [List.eq_of_mem_replicate hx]

theorem matSum_zeros (r c : ℕ) : matSum (zeros r c) = 0 := by
  simp [matSum, zeros, List.map_replicate]

theorem n_bins_pos (lo hi bin : ℚ) (hbin : 0 < bin) (h : lo < hi) :
    1 ≤ n_bins lo hi bin := by
  unfold n_bins
  have h1 : 0 < (hi - lo) / bin := div_pos (by linarith) hbin
  have h2 : 0 < ⌈(hi - lo) / bin⌉ := Int.ceil_pos.mpr h1
  omega

theorem countFold_spec (xlo ylo bin : ℚ) (nx ny : ℕ)
    (hnx : 1 ≤ nx) (hny : 1 ≤ ny) :
    ∀ (xy : List (Option ℚ × Option ℚ)) (m : List (List ℚ)),
      IsShape m ny nx → matNonneg m →
      IsShape (xy.foldl (countStep xlo ylo bin nx ny) m) ny nx ∧
      matNonneg (xy.foldl (countStep xlo ylo bin nx ny) m) ∧
      matSum (xy.foldl (countStep xlo ylo bin nx ny) m)
        = matSum m + (xy.countP (fun s => isValidSample s) : ℚ) := by
  intro xy
  induction xy with
  | nil =>
    intro m hs hn
    exact ⟨hs, hn, by simp⟩
  | cons s t ih =>
    intro m hs hn
    obtain ⟨sx, sy⟩ := s
    cases sx with
    | none =>
      have hstep : countStep xlo ylo bin nx ny m (none, sy) = m := by
        cases sy <;> rfl
      have hp : isValidSample ((none : Option ℚ), sy) = false := by
        cases sy <;> rfl
      rcases ih m hs hn with ⟨ha, hb, hc⟩
      refine ⟨?_, ?_, ?_⟩
      · simpa [List.foldl_cons, hstep] using ha
      · simpa [List.foldl_cons, hstep] using hb
      · rw [List.foldl_cons, hstep, List.countP_cons, hp]
        simpa using hc
    | some x =>
      cases sy with
      | none =>
        have hstep : countStep xlo ylo bin nx ny m (some x, none) = m := rfl
        rcases ih m hs hn with ⟨ha, hb, hc⟩
        refine ⟨?_, ?_, ?_⟩
        · simpa [List.foldl_cons, hstep] using ha
        · simpa [List.foldl_cons, hstep] using hb
        · rw [List.foldl_cons, hstep, List.countP_cons]
          simp [isValidSample]
          simpa using hc
      | some y =>
        have hstep : countStep xlo ylo bin nx ny m (some x, some y)
            = incr m (binOf ylo bin ny y) (binOf xlo bin nx x) := rfl
        have hyb : binOf ylo bin ny y < m.length := by
          rw [hs.1]
          exact clipIdx_lt _ _ hny
        have hxb : ∀ row ∈ m, binOf xlo bin nx x < row.length := by
          intro row hrow
          rw [hs.2 row hrow]
          exact clipIdx_lt _ _ hnx
        have hshape2 := shape_incr m (binOf ylo bin ny y) (binOf xlo bin nx x)
          ny nx hs
        have hnn2 := nonneg_incr m (binOf ylo bin ny y) (binOf xlo bin nx x) hn
        rcases ih _ hshape2 hnn2 with ⟨ha, hb, hc⟩
        refine ⟨?_, ?_, ?_⟩
        · simpa [List.foldl_cons, hstep] using ha
        · simpa [List.foldl_cons, hstep] using hb
        · rw [List.foldl_cons, hstep, List.countP_cons]
          have hv : isValidSample (some x, some y) = true := rfl
          rw [hc, matSum_incr _ m _ hyb hxb]
          simp only [hv, if_true]
          push_cast
          ring

theorem countFold_id (xlo ylo bin : ℚ) (nx ny : ℕ) :
    ∀ (xy : List (Option ℚ × Option ℚ)) (m : List (List ℚ)),
      (∀ s ∈ xy, isValidSample s = false) →
      xy.foldl (countStep xlo ylo bin nx ny) m = m := by
  intro xy
  induction xy with
  | nil => intro m _; rfl
  | cons s t ih =>
    intro m h
    obtain ⟨sx, sy⟩ := s
    have hs := h (sx, sy) (by simp)
    have ht : ∀ s2 ∈ t, isValidSample s2 = false := fun s2 hs2 => h s2 (by simp [hs2])
    cases sx with
    | none =>
      have hstep : countStep xlo ylo bin nx ny m (none, sy) = m := by
        cases sy <;> rfl
      rw [List.foldl_cons, hstep]
      exact ih m ht
    | some x =>
      cases sy with
      | none =>
        rw [List.foldl_cons]
        exact ih m ht
      | some y => simp [isValidSample] at hs

theorem flatten_sum (m : List (List ℚ)) : m.flatten.sum = matSum m := by
  induction m with
  | nil => simp [matSum]
  | cons r t ih =>
    rw [List.flatten_cons, List.sum_append, ih]
    simp [matSum]

/-! ## C5: smoothing lemmas -/

theorem smooth1Aux_length (k : ℚ) :
    ∀ (rest : List ℚ) (p x : ℚ),
      (smooth1Aux k p (x :: rest)).length = rest.length + 1 := by
  intro rest
  induction rest with
  | nil => intro p x; rfl
  | cons y r ih =>
    intro p x
    simp [smooth1Aux, ih x y]

theorem smooth1_length (k : ℚ) (l : List ℚ) :
    (smooth1 k l).length = l.length := by
  cases l with
  | nil => rfl
  | cons x rest => simp [smooth1, smooth1Aux_length]

theorem smooth1Aux_sum (k : ℚ) :
    ∀ (rest : List ℚ) (p x : ℚ),
      (smooth1Aux k p (x :: rest)).sum = k * p + (x :: rest).sum - k * x := by
  intro rest
  induction rest with
  | nil =>
    intro p x
    simp [smooth1Aux]
    ring
  | cons y r ih =>
    intro p x
    simp only [smooth1Aux, List.sum_cons]
    rw [ih x y]
    simp only [List.sum_cons]
    ring

theorem smooth1_sum (k : ℚ) (l : List ℚ) : (smooth1 k l).sum = l.sum := by
  cases l with
  | nil => rfl
  | cons x rest =>
    show (smooth1Aux k x (x :: rest)).sum = (x :: rest).sum
    rw [smooth1Aux_sum]
    ring

theorem smul_length (c : ℚ) (v : List ℚ) : (smul c v).length = v.length := by
  simp [smul]

theorem smul_sum (c : ℚ) (v : List ℚ) : (smul c v).sum = c * v.sum := by
  induction v with
  | nil => simp [smul]
  | cons a t ih =>
    simp only [smul, List.map_cons, List.sum_cons] at ih ⊢
    rw [ih]
    ring

theorem vadd_length (a b : List ℚ) :
    (vadd a b).length = min a.length b.length := by
  simp [vadd]

theorem vadd_sum : ∀ (a b : List ℚ), a.length = b.length →
    (vadd a b).sum = a.sum + b.sum := by
  intro a
  induction a with
  | nil =>
    intro b h
    cases b with
    | nil => simp [vadd]
    | cons y u => simp at h
  | cons x t ih =>
    intro b h
    cases b with
    | nil => simp at h
    | cons y u =>
      simp only [vadd, List.zipWith_cons_cons, List.sum_cons]
      rw [show List.zipWith (· + ·) t u = vadd t u from rfl, ih u (by simpa using h)]
      ring

theorem rowComb_length (k : ℚ) (p x y : List ℚ) (c : ℕ)
    (hp : p.length = c) (hx : x.length = c) (hy : y.length = c) :
    (rowComb k p x y).length = c := by
  simp [rowComb, vadd_length, smul_length, hp, hx, hy]

theorem rowComb_sum (k : ℚ) (p x y : List ℚ) (c : ℕ)
    (hp : p.length = c) (hx : x.length = c) (hy : y.length = c) :
    (rowComb k p x y).sum = k * p.sum + (1 - 2 * k) * x.sum + k * y.sum := by
  unfold rowComb
  rw [vadd_sum _ _ (by simp [vadd_length, smul_length, hp, hx, hy]),
    vadd_sum _ _ (by simp [smul_length, hp, hx]), smul_sum, smul_sum, smul_sum]

theorem smoothColsAux_matSum (k : ℚ) (c : ℕ) :
    ∀ (rest : List (List ℚ)) (p x : List ℚ),
      p.length = c → x.length = c → (∀ r ∈ rest, r.length = c) →
      matSum (smoothColsAux k p (x :: rest))
        = k * p.sum + matSum (x :: rest) - k * x.sum := by
  intro rest
  induction rest with
  | nil =>
    intro p x hp hx _
    simp only [smoothColsAux, matSum, List.map_cons, List.map_nil,
      List.sum_cons, List.sum_nil]
    rw [rowComb_sum k p x x c hp hx hx]
    ring
  | cons y r ih =>
    intro p x hp hx hr
    have hy : y.length = c := hr y (by simp)
    have hr2 : ∀ z ∈ r, z.length = c := fun z hz => hr z (by simp [hz])
    simp only [smoothColsAux, matSum, List.map_cons, List.sum_cons]
    rw [rowComb_sum k p x y c hp hx hy]
    have h2 := ih x y hx hy hr2
    simp only [matSum, List.map_cons, List.sum_cons] at h2
    rw [h2]
    ring

theorem smoothCols_matSum (k : ℚ) (c : ℕ) (m : List (List ℚ))
    (hm : ∀ r ∈ m, r.length = c) :
    matSum (smoothCols k m) = matSum m := by
  cases m with
  | nil => rfl
  | cons x rest =>
    show matSum (smoothColsAux k x (x :: rest)) = matSum (x :: rest)
    rw [smoothColsAux_matSum k c rest x x (hm x (by simp)) (hm x (by simp))
      (fun z hz => hm z (by simp [hz]))]
    ring

theorem gaussian_matSum (k : ℚ) (c : ℕ) (m : List (List ℚ))
    (hm : ∀ r ∈ m, r.length = c) :
    matSum (gaussian_filter k m) = matSum m := by
  unfold gaussian_filter
  rw [smoothCols_matSum k c]
  · unfold matSum
    rw [List.map_map]
    congr 1
    exact List.map_congr_left (fun r _ => smooth1_sum k r)
  · intro r hr
    obtain ⟨r0, hr0, hrr⟩ := List.mem_map.mp hr
    rw [← hrr, smooth1_length]
    exact hm r0 hr0

theorem smooth1Aux_zero (k : ℚ) :
    ∀ (n : ℕ), smooth1Aux k 0 (List.replicate (n + 1) 0)
      = List.replicate (n + 1) 0 := by
  intro n
  induction n with
  | zero =>
    show smooth1Aux k 0 [(0 : ℚ)] = [(0 : ℚ)]
    simp [smooth1Aux]
  | succ n ih =>
    show smooth1Aux k 0 ((0 : ℚ) :: (0 : ℚ) :: List.replicate n 0)
      = (0 : ℚ) :: (0 : ℚ) :: List.replicate n 0
    rw [show smooth1Aux k 0 ((0 : ℚ) :: (0 : ℚ) :: List.replicate n 0)
      = (k * 0 + (1 - 2 * k) * 0 + k * 0) :: smooth1Aux k 0 ((0 : ℚ) :: List.replicate n 0)
      from rfl]
    rw [show ((0 : ℚ) :: List.replicate n (0 : ℚ)) = List.replicate (n + 1) (0 : ℚ)
      from rfl, ih]
    norm_num

theorem smooth1_replicate_zero (k : ℚ) (c : ℕ) :
    smooth1 k (List.replicate c 0) = List.replicate c 0 := by
  cases c with
  | zero => rfl
  | succ n =>
    show smooth1 k ((0 : ℚ) :: List.replicate n 0) = _
    rw [show smooth1 k ((0 : ℚ) :: List.replicate n 0)
      = smooth1Aux k 0 ((0 : ℚ) :: List.replicate n 0) from rfl]
    exact smooth1Aux_zero k n

theorem smul_replicate_zero (k : ℚ) (c : ℕ) :
    smul k (List.replicate c 0) = List.replicate c 0 := by
  simp [smul, List.map_replicate]

theorem vadd_replicate_zero (c : ℕ) :
    vadd (List.replicate c 0) (List.replicate c 0) = List.replicate c 0 := by
  induction c with
  | zero => rfl
  | succ n ih =>
    simp only [List.replicate_succ, vadd, List.zipWith_cons_cons, add_zero]
    simp only [vadd] at ih
    rw [ih]

theorem rowComb_zero (k : ℚ) (c : ℕ) :
    rowComb k (List.replicate c 0) (List.replicate c 0) (List.replicate c 0)
      = List.replicate c 0 := by
  simp [rowComb, smul_replicate_zero, vadd_replicate_zero]

theorem smoothColsAux_zeros (k : ℚ) (c : ℕ) :
    ∀ (n : ℕ), smoothColsAux k (List.replicate c 0)
        (List.replicate (n + 1) (List.replicate c 0))
      = List.replicate (n + 1) (List.replicate c 0) := by
  intro n
  induction n with
  | zero =>
    show smoothColsAux k (List.replicate c (0 : ℚ)) [List.replicate c (0 : ℚ)]
      = [List.replicate c (0 : ℚ)]
    simp [smoothColsAux, rowComb_zero]
  | succ n ih =>
    show smoothColsAux k (List.replicate c (0 : ℚ))
        (List.replicate c (0 : ℚ) :: List.replicate c (0 : ℚ)
          :: List.replicate n (List.replicate c (0 : ℚ)))
      = _
    rw [show smoothColsAux k (List.replicate c (0 : ℚ))
        (List.replicate c (0 : ℚ) :: List.replicate c (0 : ℚ)
          :: List.replicate n (List.replicate c (0 : ℚ)))
      = rowComb k (List.replicate c 0) (List.replicate c 0) (List.replicate c 0)
        :: smoothColsAux k (List.replicate c 0)
          (List.replicate c (0 : ℚ) :: List.replicate n (List.replicate c (0 : ℚ)))
      from rfl]
    rw [show (List.replicate c (0 : ℚ) :: List.replicate n (List.replicate c (0 : ℚ)))
      = List.replicate (n + 1) (List.replicate c (0 : ℚ)) from rfl, ih, rowComb_zero]
    rfl

theorem smoothCols_zeros (k : ℚ) (r c : ℕ) :
    smoothCols k (zeros r c) = zeros r c := by
  cases r with
  | zero => rfl
  | succ n =>
    show smoothCols k (List.replicate (n + 1) (List.replicate c 0)) = _
    rw [show smoothCols k (List.replicate (n + 1) (List.replicate c 0))
      = smoothColsAux k (List.replicate c 0)
        (List.replicate c (0 : ℚ) :: List.replicate n (List.replicate c (0 : ℚ)))
      from rfl]
    rw [show (List.replicate c (0 : ℚ) :: List.replicate n (List.replicate c (0 : ℚ)))
      = List.replicate (n + 1) (List.replicate c (0 : ℚ)) from rfl]
    exact smoothColsAux_zeros k c n

theorem gaussian_zeros (k : ℚ) (r c : ℕ) :
    gaussian_filter k (zeros r c) = zeros r c := by
  unfold gaussian_filter
  rw [show (zeros r c).map (smooth1 k) = zeros r c by
    simp [zeros, List.map_replicate, smooth1_replicate_zero]]
  exact smoothCols_zeros k r c

theorem smooth_occupancy_matSum (k : ℚ) (c : ℕ) (m : List (List ℚ))
    (hm : ∀ r ∈ m, r.length = c) (hpos : 0 < matSum m) :
    matSum (smooth_occupancy k m) = 1 := by
  unfold smooth_occupancy
  rw [gaussian_matSum k c m hm, if_pos hpos, matSum_matDiv,
    gaussian_matSum k c m hm, div_self (ne_of_gt hpos)]

theorem smooth_occupancy_zeros (k : ℚ) (r c : ℕ) :
    smooth_occupancy k (zeros r c) = zeros r c := by
  unfold smooth_occupancy
  rw [gaussian_zeros, matSum_zeros, if_neg (by norm_num)]

/-- C5: for any player whose column pair has at least one valid sample, the
occupancy row built by `build_occupancy_matrix` sums to exactly 1 after
smoothing and renormalization; for a player with no valid sample the row is
all zero (and no division is performed, since both normalizations guard on a
positive total). -/
theorem C5_occupancy_row_mass (xy : List (List (Option ℚ)))
    (xlo xhi ylo yhi bin k : ℚ) (p : ℕ) (r : List ℚ)
    (hbin : 0 < bin) (hxlim : xlo < xhi) (hylim : ylo < yhi)
    (hr : (build_occupancy_matrix xy xlo xhi ylo yhi bin k)[p]? = some r) :
    ((∃ s ∈ player_xy xy p, isValidSample s = true) → r.sum = 1) ∧
    ((∀ s ∈ player_xy xy p, isValidSample s = false) → ∀ v ∈ r, v = 0) := by
  have hnx := n_bins_pos xlo xhi bin hbin hxlim
  have hny := n_bins_pos ylo yhi bin hbin hylim
  unfold build_occupancy_matrix at hr
  rw [List.getElem?_map] at hr
  cases hrange : (List.range (n_players_of xy))[p]? with
  | none =>
    rw [hrange] at hr
    simp at hr
  | some p2 =>
    rw [hrange] at hr
    simp only [Option.map_some'] at hr
    have hre := Option.some.inj hr
    have hp2 : p2 = p := by
      rcases List.getElem?_eq_some_iff.mp hrange with ⟨hlt, hval⟩
      simpa using hval.symm
    rw [hp2] at hre
    set counts := create_player_count_matrix (player_xy xy p) xlo xhi ylo yhi bin
      with hcounts
    have hcc : counts = (player_xy xy p).foldl
        (countStep xlo ylo bin (n_bins xlo xhi bin) (n_bins ylo yhi bin))
        (zeros (n_bins ylo yhi bin) (n_bins xlo xhi bin)) := rfl
    obtain ⟨hshape, hnonneg, hsum⟩ := countFold_spec xlo ylo bin
      (n_bins xlo xhi bin) (n_bins ylo yhi bin) hnx hny (player_xy xy p)
      (zeros (n_bins ylo yhi bin) (n_bins xlo xhi bin))
      (shape_zeros _ _) (nonneg_zeros _ _)
    rw [← hcc] at hshape hnonneg hsum
    rw [matSum_zeros, zero_add] at hsum
    constructor
    · rintro ⟨s0, hs0, hval⟩
      have hcp : 0 < (player_xy xy p).countP (fun s => isValidSample s) :=
        List.countP_pos_iff.mpr ⟨s0, hs0, hval⟩
      have hpos : 0 < matSum counts := by
        rw [hsum]
        exact_mod_cast hcp
      have hnorm_eq : normalize_to_occupancy counts = matDiv counts (matSum counts) := by
        unfold normalize_to_occupancy
        rw [if_pos hpos]
      have hnorm_sum : matSum (normalize_to_occupancy counts) = 1 := by
        rw [hnorm_eq, matSum_matDiv, div_self (ne_of_gt hpos)]
      have hnorm_rows : ∀ row ∈ normalize_to_occupancy counts,
          row.length = n_bins xlo xhi bin := by
        rw [hnorm_eq]
        intro row hrow
        obtain ⟨r0, hr0, hrr⟩ := List.mem_map.mp hrow
        rw [← hrr, List.length_map]
        exact hshape.2 r0 hr0
      have hfinal : matSum (smooth_occupancy k (normalize_to_occupancy counts)) = 1 :=
        smooth_occupancy_matSum k (n_bins xlo xhi bin) _ hnorm_rows
          (by rw [hnorm_sum]; norm_num)
      rw [← hre, flatten_sum, hfinal]
    · intro hinv
      have hzero : counts
          = zeros (n_bins ylo yhi bin) (n_bins xlo xhi bin) := by
        rw [hcc]
        exact countFold_id xlo ylo bin _ _ (player_xy xy p) _ hinv
      have hnorm : normalize_to_occupancy counts
          = zeros (n_bins ylo yhi bin) (n_bins xlo xhi bin) := by
        rw [hzero]
        unfold normalize_to_occupancy
        rw [matSum_zeros, if_neg (by norm_num)]
      have hsm : smooth_occupancy k (normalize_to_occupancy counts)
          = zeros (n_bins ylo yhi bin) (n_bins xlo xhi bin) := by
        rw [hnorm]
        exact smooth_occupancy_zeros k _ _
      intro v hv
      rw [← hre, hsm] at hv
      obtain ⟨row, hrow, hvrow⟩ := List.mem_flatten.mp hv
      have hrowz := List.eq_of_mem_replicate hrow
      rw [hrowz] at hvrow
      exact List.eq_of_mem_replicate hvrow

/-- C5 witness: a single valid sample on a one-bin grid gives the occupancy
row `[1]`, which sums to 1; the zero-sample branch is vacuously checked. -/
theorem C5_witness :
    ((∃ s ∈ player_xy [[some (1 : ℚ), some 1]] 0, isValidSample s = true) →
      ([(1 : ℚ)] : List ℚ).sum = 1) ∧
    ((∀ s ∈ player_xy [[some (1 : ℚ), some 1]] 0, isValidSample s = false) →
      ∀ v ∈ ([(1 : ℚ)] : List ℚ), v = 0) :=
  C5_occupancy_row_mass [[some 1, some 1]] 0 5 0 5 5 (1 / 4) 0 [1]
    (by norm_num) (by norm_num) (by norm_num) (by with_unfolding_all decide)

end SportsNets
